import Mathlib

/-!
Shallow embedding of the CodeReadAI backend (Python) in Lean 4, together with
theorems checking the repository's natural-language specification against it.

Embedded components:
* `ParserService` (src/backend/app/services/parser_service.py): the structural
  extractor over tree-sitter parse trees — node kinds, name extraction,
  signature extraction, and the recursive `_extract_code_units` traversal.
* File selection in `analyze_repository` and `_get_all_supported_files`
  (src/backend/app/worker/tasks.py).
* `_ensure_directory`, `_process_file`, `_create_code_unit`
  (src/backend/app/worker/tasks.py) as explicit state-passing functions over a
  database state model, with language-model calls as an explicit oracle whose
  invocations are logged.
* `cancel_job` (src/backend/app/api/jobs.py).
* The per-job progress/status commit trace of `analyze_repository`.

Machine strings are Lean `String`s; Python optional values are `Option`;
Python truthiness of optional strings (`None` and `""` falsy) is `pyTruthy`.
Tree-sitter is external C code, so parse trees (`TSNode`) are inputs, not
computed; the extractor itself is embedded faithfully from the source.
-/

namespace CodeReadAI

/-- Python truthiness of an optional string: `None` and `""` are falsy. -/
def pyTruthy : Option String → Bool
  | none => false
  | some s => !(s == "")

/-- A tree-sitter parse-tree node, as consumed by `ParserService`:
kind tag (`type`), 0-based start/end rows (`start_point[0]`, `end_point[0]`),
byte offsets, raw `text`, ordered children. -/
structure TSNode where
  type : String
  startRow : Nat
  endRow : Nat
  startByte : Nat
  endByte : Nat
  text : String
  children : List TSNode

/-- `CodeUnitInfo` from parser_service.py: extracted code unit information.
`metadata` is the dict, as an association list. -/
structure CodeUnitInfo where
  type : String
  name : String
  start_line : Nat
  end_line : Nat
  signature : String
  source_code : String
  children : List CodeUnitInfo := []
  metadata : List (String × String) := []

/-- `EXTRACT_TYPES[language]`: the (function kinds, class kinds) tables of
`ParserService.EXTRACT_TYPES`; an unknown language yields `([], [])`, matching
`EXTRACT_TYPES.get(language, {})`. -/
def extractTypes (language : String) : List String × List String :=
  match language with
  | "python" => (["function_definition"], ["class_definition"])
  | "javascript" => (["function_declaration", "arrow_function", "function"],
                     ["class_declaration"])
  | "typescript" => (["function_declaration", "arrow_function", "function"],
                     ["class_declaration", "interface_declaration"])
  | "java" => (["method_declaration", "constructor_declaration"],
               ["class_declaration", "interface_declaration"])
  | "go" => (["function_declaration", "method_declaration"], ["type_declaration"])
  | "rust" => (["function_item"], ["struct_item", "impl_item", "trait_item"])
  | "c" => (["function_definition"], ["struct_specifier"])
  | "cpp" => (["function_definition"], ["class_specifier", "struct_specifier"])
  | _ => ([], [])

/-- The name-bearing child kinds searched by `ParserService._get_name`. -/
def nameTypes : List String := ["name", "identifier", "declarator", "type_identifier"]

/-- `ParserService._get_name`, iterating the node's children: return the text
of the first name-typed child; a `function_declarator` child is searched one
level deeper for an `identifier` (C/C++), returning that identifier's text if
found, otherwise the scan continues with the next child. -/
def getNameFrom : List TSNode → Option String
  | [] => none
  | c :: rest =>
    if c.type ∈ nameTypes then some c.text
    else if c.type == "function_declarator" then
      match c.children.find? (fun sc => sc.type == "identifier") with
      | some sc => some sc.text
      | none => getNameFrom rest
    else getNameFrom rest

/-- `ParserService._get_name` on a node (the `language` argument of the source
is unused there and omitted). -/
def getName (node : TSNode) : Option String :=
  getNameFrom node.children

/-- Python slice `content[a:b]` (character indices). -/
def strSlice (s : String) (a b : Nat) : String :=
  String.mk ((s.data.drop a).take (b - a))

/-- Split a character list at every occurrence of `sep` (single-character
`str.split`). -/
def charSplit (sep : Char) : List Char → List (List Char)
  | [] => [[]]
  | c :: rest =>
    match charSplit sep rest with
    | [] => [[]]
    | h :: t => if c == sep then [] :: h :: t else (c :: h) :: t

/-- `s.split(sep)` for a single-character separator, over strings. -/
def pySplit (s : String) (sep : Char) : List String :=
  (charSplit sep s.data).map String.mk

/-- Python `str.strip()`: remove leading and trailing whitespace. -/
def pyStrip (s : String) : String :=
  String.mk (((s.data.dropWhile Char.isWhitespace).reverse.dropWhile
    Char.isWhitespace).reverse)

/-- Whether `s` starts with `pat` (character lists). -/
def charsStartWith : List Char → List Char → Bool
  | _, [] => true
  | [], _ :: _ => false
  | a :: as, b :: bs => a == b && charsStartWith as bs

/-- `s.endswith(pat)` over strings. -/
def strEndsWith (s pat : String) : Bool :=
  charsStartWith s.data.reverse pat.data.reverse

/-- `s.lower()` over strings. -/
def strToLower (s : String) : String :=
  String.mk (s.data.map Char.toLower)

/-- `sep.join(l)` over strings. -/
def strIntercalate (sep : String) (l : List String) : String :=
  String.mk (List.intercalate sep.data (l.map String.data))

/-- The lines of `_extract_signature`'s Python branch: accumulate lines until
(and including) the first whose stripped text ends with ":". -/
def sigLinesPython : List String → List String
  | [] => []
  | l :: rest =>
    if strEndsWith (pyStrip l) ":" then [l] else l :: sigLinesPython rest

/-- `ParserService._extract_signature`: Python gets decorator/def lines up to
the first line ending in ":"; other languages take the first line, truncated
before the first opening brace when one occurs. -/
def extractSignature (node : TSNode) (content : String) (language : String) : String :=
  let source := strSlice content node.startByte node.endByte
  let lines := pySplit source (Char.ofNat 10)
  if language == "python" then
    strIntercalate "\n" (sigLinesPython lines)
  else
    let first_line := lines.headD ""
    if (pySplit first_line (Char.ofNat 123)).length > 1 then
      pyStrip ((pySplit first_line (Char.ofNat 123)).headD "")
    else
      pyStrip first_line

/-- `ParserService._extract_function`: `None` when no (truthy) name is found;
`type` is "method" exactly when the parent-class context is truthy, in which
case `metadata` records it. -/
def extractFunction (node : TSNode) (content : String) (language : String)
    (parent_class : Option String) : Option CodeUnitInfo :=
  match getName node with
  | none => none
  | some name =>
    if name == "" then none
    else some
      { type := if pyTruthy parent_class then "method" else "function"
        name := name
        start_line := node.startRow + 1
        end_line := node.endRow + 1
        signature := extractSignature node content language
        source_code := strSlice content node.startByte node.endByte
        children := []
        metadata := if pyTruthy parent_class then
            [("parent_class", parent_class.getD "")] else [] }

/-- `ParserService._extract_class`: `None` when no (truthy) name is found. -/
def extractClass (node : TSNode) (content : String) (language : String) :
    Option CodeUnitInfo :=
  match getName node with
  | none => none
  | some name =>
    if name == "" then none
    else some
      { type := "class"
        name := name
        start_line := node.startRow + 1
        end_line := node.endRow + 1
        signature := extractSignature node content language
        source_code := strSlice content node.startByte node.endByte
        children := []
        metadata := [] }

mutual

/-- The loop body of `ParserService._extract_code_units` over a list of
children. Recursive calls `_extract_code_units(child, ...)` of the source
appear here as `extractChildren child.children ...`; `extractCodeUnits`
below is that same application, as a wrapper on the node. -/
def extractChildren (l : List TSNode) (content : String) (language : String)
    (parent_class : Option String) : List CodeUnitInfo :=
  match l with
  | [] => []
  | c :: rest =>
    extractChild c content language parent_class ++
      extractChildren rest content language parent_class
termination_by sizeOf l
decreasing_by
  all_goals simp_wf
  all_goals (cases c; simp; try omega)

/-- One iteration of the `_extract_code_units` loop for child `c`: a function
kind yields its unit when named; a class kind yields its unit with children
recursively extracted under its name as class context; in every case where no
unit results (other kinds, or a function/class kind with no name), the
extractor recurses into `c` with the current class context. -/
def extractChild (c : TSNode) (content : String) (language : String)
    (parent_class : Option String) : List CodeUnitInfo :=
  if c.type ∈ (extractTypes language).1 then
    match extractFunction c content language parent_class with
    | some u => [u]
    | none => extractChildren c.children content language parent_class
  else if c.type ∈ (extractTypes language).2 then
    match extractClass c content language with
    | some u =>
      [{ u with children := extractChildren c.children content language (some u.name) }]
    | none => extractChildren c.children content language parent_class
  else
    extractChildren c.children content language parent_class
termination_by sizeOf c
decreasing_by
  all_goals simp_wf
  all_goals (cases c; simp; try omega)

end

/-- `ParserService._extract_code_units` on a node: iterate over the node's
children, emitting per-child contributions in order. -/
def extractCodeUnits (node : TSNode) (content : String) (language : String)
    (parent_class : Option String) : List CodeUnitInfo :=
  extractChildren node.children content language parent_class

/-- `ParseResult` from parser_service.py. -/
structure ParseResult where
  language : String
  code_units : List CodeUnitInfo
  line_count : Nat

/-- `ParserService.EXTENSION_MAP`. -/
def EXTENSION_MAP : List (String × String) :=
  [(".py", "python"), (".js", "javascript"), (".jsx", "javascript"),
   (".ts", "typescript"), (".tsx", "typescript"), (".java", "java"),
   (".go", "go"), (".rs", "rust"), (".c", "c"), (".h", "c"),
   (".cpp", "cpp"), (".hpp", "cpp"), (".cc", "cpp"), (".cxx", "cpp")]

/-- Index of the last occurrence of `c` in `l`, if any. -/
def rfindIdx (c : Char) (l : List Char) : Option Nat :=
  (l.reverse.findIdx? (fun x => x == c)).map (fun j => l.length - 1 - j)

/-- `pathlib.PurePath.suffix` on a final path component: the substring from
the last "." when that dot is neither leading nor trailing, else `""`. -/
def pySuffix (name : String) : String :=
  match rfindIdx (Char.ofNat 46) name.data with
  | some i =>
    if 0 < i ∧ i < name.data.length - 1 then String.mk (name.data.drop i) else ""
  | none => ""

/-- `pathlib.Path(file_path).name`: the final "/"-separated component. -/
def pathFinalComponent (file_path : String) : String :=
  (pySplit file_path '/').getLastD ""

/-- `ParserService.detect_language`: extension → language via
`EXTENSION_MAP.get(Path(file_path).suffix.lower())`. -/
def detect_language (file_path : String) : Option String :=
  EXTENSION_MAP.lookup (strToLower (pySuffix (pathFinalComponent file_path)))

/-- The lockfile names skipped by `_get_all_supported_files`. -/
def lockFileNames : List String := ["package-lock.json", "yarn.lock", "Cargo.lock"]

/-- Whether `pat` occurs as a contiguous run inside `s` (character lists). -/
def charsContain (pat : List Char) : List Char → Bool
  | [] => charsStartWith [] pat
  | a :: rest => charsStartWith (a :: rest) pat || charsContain pat rest

/-- Python `pat in s` on strings: substring containment. -/
def containsSubstr (s pat : String) : Bool :=
  charsContain pat.data s.data

/-- Relative path of a walked file: directory components plus filename. -/
def joinPath (dir : List String) (base : String) : String :=
  strIntercalate "/" (dir ++ [base])

/-- `_get_all_supported_files` (tasks.py): the walked tree is given as
(directory components, filename) pairs relative to the repo root (the walk
itself is OS-level); a file is kept when its walk root does not contain
".git", its name is not hidden or a lockfile, and its language is detected.
(The absolute storage prefix of the walk root is assumed free of ".git".) -/
def get_all_supported_files (tree : List (List String × String)) : List String :=
  tree.filterMap fun e =>
    if containsSubstr (strIntercalate "/" e.1) ".git" then none
    else if charsStartWith e.2.data [Char.ofNat 46] then none
    else if e.2 ∈ lockFileNames then none
    else if (detect_language (joinPath e.1 e.2)).isSome then some (joinPath e.1 e.2)
    else none

/-- The file-selection step of `analyze_repository` (tasks.py lines 45-53):
incremental jobs with a truthy stored `last_commit_hash` take the changed
files as returned by the git diff; everything else is a full scan. -/
def selectFilesToProcess (job_type : String) (last_commit_hash : Option String)
    (changed_files : List String) (tree : List (List String × String)) : List String :=
  if job_type == "incremental" && pyTruthy last_commit_hash then changed_files
  else get_all_supported_files tree

/-- The spec's words for the incremental selection ("processes only
`changedPaths` (further filtered the same way)"): changed paths restricted to
those whose language is detected and whose name is not a lockfile or hidden
file. Stated from the spec for comparison with `selectFilesToProcess`. -/
def specFilteredChangedPaths (changed_files : List String) : List String :=
  changed_files.filter fun p =>
    let base := pathFinalComponent p
    !(charsStartWith base.data [Char.ofNat 46]) && !(decide (base ∈ lockFileNames)) &&
      (detect_language p).isSome

/-- `AnalysisJob` columns relevant to the verified claims
(models/analysis_job.py). -/
structure JobRec where
  id : Nat
  repository_id : Nat
  status : String
  job_type : String
  progress : Nat
  total_files : Option Nat
  processed_files : Nat
  error_message : Option String

/-- `cancel_job` (api/jobs.py): 404 when absent; 400 (job untouched) unless
the status is pending or running; otherwise the job is written with status
"failed" and error message "Cancelled by user". -/
def cancel_job (job : Option JobRec) : Except (Nat × String) JobRec :=
  match job with
  | none => .error (404, "Job not found")
  | some j =>
    if !(decide (j.status ∈ ["pending", "running"])) then
      .error (400, "Job cannot be cancelled")
    else
      .ok { j with status := "failed", error_message := some "Cancelled by user" }

/-- The per-file progress value committed inside the loop of
`analyze_repository`: `int((i + 1) / len(files) * 80) if files else 0`,
with `processed = i + 1`, modelled over exact naturals (the Python float
product is exact floor here). -/
def jobProgress (total processed : Nat) : Nat :=
  if total = 0 then 0 else 80 * processed / total

/-- The (status, progress) pairs committed by a successful run of
`analyze_repository` over `n` selected files, in commit order: pending at
creation, running before file processing, one commit per processed file,
90 after directory summarization, 100 at completion. -/
def successTrace (n : Nat) : List (String × Nat) :=
  (("pending", 0) :: ("running", 0) ::
    ((List.range n).map fun i => ("running", jobProgress n (i + 1))) ++
      [("running", 90)]) ++
    [("completed", 100)]

/-- The commit trace of a run of `analyze_repository`: a full successful run,
or one interrupted by an uncaught exception after `k + 1` commits, whose
handler sets status "failed" and leaves `progress` at its last committed
value (tasks.py lines 86-92). -/
def runTrace (n : Nat) (failAfter : Option Nat) : List (String × Nat) :=
  match failAfter with
  | none => successTrace n
  | some k =>
    let pre := (successTrace n).take (k + 1)
    pre ++ [("failed", ((pre.getLast?).map Prod.snd).getD 0)]

/-- Lexicographically ascending sort of directory paths (as character lists)
followed by reversal: the model of
`.order_by(Directory.path.desc())` in `_generate_directory_summaries`
(byte-wise lexicographic collation assumed). -/
def directorySummaryOrder (paths : List (List Char)) : List (List Char) :=
  (List.insertionSort (fun a b => a ≤ b) paths).reverse

/-- `Repository` columns used by the worker (models/repository.py). -/
structure RepoRec where
  id : Nat
  owner : String
  name : String
  last_commit_hash : Option String

/-- `Directory` columns used by the worker (models/directory.py). Directory
paths are relative and normalized, so they are modelled as component lists
(`[]` is the root's empty path; `os.path.dirname` is `dropLast`,
`os.path.basename` is `getLast`). -/
structure DirRec where
  id : Nat
  repository_id : Nat
  parent_id : Option Nat
  path : List String
  name : String

/-- `File` columns used by the worker (models/file.py). -/
structure FileRec where
  id : Nat
  directory_id : Nat
  path : String
  name : String
  language : String
  content_hash : String
  line_count : Nat
  summary : Option String

/-- `CodeUnit` columns used by the worker (models/code_unit.py). -/
structure UnitRec where
  id : Nat
  file_id : Nat
  parent_id : Option Nat
  type : String
  name : String
  start_line : Nat
  end_line : Nat
  signature : String
  description : Option String
  metadata : List (String × String)

/-- The worker-visible database state: directory, file and code-unit rows,
plus a counter standing in for primary-key generation. -/
structure DBState where
  dirs : List DirRec
  files : List FileRec
  units : List UnitRec
  nextId : Nat

/-- One language-model invocation made by the worker. -/
inductive LLMCall where
  | analyzeUnit (source_code type name language : String)
  | summarizeFileCall (file_path : String)
      (code_unit_summaries : List (String × String × String)) (language : String)

/-- Whether a logged call is a per-file summarization call. -/
def isSummarizeFileCall : LLMCall → Bool
  | .summarizeFileCall .. => true
  | _ => false

/-- The language-model service as an oracle: `analyze_code_unit` yields
`none` when the call raises (the caller catches it); `summarize_file` yields
the summary text. -/
structure LLMOracle where
  analyze_code_unit : String → String → String → String → Option String
  summarize_file : String → List (String × String × String) → String → String

/-- The `select(Directory).where(repository_id == , path == )` lookup of
`_ensure_directory`. -/
def findDir (st : DBState) (repoId : Nat) (p : List String) : Option DirRec :=
  st.dirs.find? fun d => d.repository_id == repoId && d.path == p

/-- `_ensure_directory` (tasks.py): the empty path finds or creates the root
directory named after the repository; a non-empty path is looked up exactly,
and when absent its parent path is ensured recursively and the new directory
is created as that parent's child. Row insertion appends; ids come from the
state counter. -/
def ensure_directory (st : DBState) (repo : RepoRec) (dir_path : List String) :
    DBState × DirRec :=
  if hp : dir_path = [] then
    match findDir st repo.id [] with
    | some root_dir => (st, root_dir)
    | none =>
      let root_dir : DirRec := ⟨st.nextId, repo.id, none, [], repo.name⟩
      ({ st with dirs := st.dirs ++ [root_dir], nextId := st.nextId + 1 }, root_dir)
  else
    match findDir st repo.id dir_path with
    | some existing => (st, existing)
    | none =>
      let parent := ensure_directory st repo dir_path.dropLast
      let directory : DirRec :=
        ⟨parent.1.nextId, repo.id, some parent.2.id, dir_path, dir_path.getLast hp⟩
      ({ parent.1 with dirs := parent.1.dirs ++ [directory],
                       nextId := parent.1.nextId + 1 }, directory)
termination_by dir_path.length
decreasing_by
  simp_wf
  cases dir_path
  · exact absurd rfl hp
  · simp

mutual

/-- `_create_code_unit` (tasks.py): the description call's failure is caught
(`none`), the row is created either way, children are created recursively
under the new row's id, and the created row is returned. The invocation is
logged. -/
def create_code_unit (oracle : LLMOracle) (st : DBState) (file_id : Nat)
    (unit_info : CodeUnitInfo) (language : String) (parent_id : Option Nat) :
    DBState × UnitRec × List LLMCall :=
  let description :=
    oracle.analyze_code_unit unit_info.source_code unit_info.type unit_info.name language
  let code_unit : UnitRec :=
    ⟨st.nextId, file_id, parent_id, unit_info.type, unit_info.name,
     unit_info.start_line, unit_info.end_line, unit_info.signature, description,
     unit_info.metadata⟩
  let st1 := { st with units := st.units ++ [code_unit], nextId := st.nextId + 1 }
  let rest := create_code_unit_children oracle st1 file_id unit_info.children language
    (some code_unit.id)
  (rest.1, code_unit,
    LLMCall.analyzeUnit unit_info.source_code unit_info.type unit_info.name language
      :: rest.2)
termination_by sizeOf unit_info
decreasing_by
  simp_wf
  cases unit_info
  simp
  omega

/-- The child loop of `_create_code_unit`. -/
def create_code_unit_children (oracle : LLMOracle) (st : DBState) (file_id : Nat)
    (children : List CodeUnitInfo) (language : String) (parent_id : Option Nat) :
    DBState × List LLMCall :=
  match children with
  | [] => (st, [])
  | c :: rest =>
    let r1 := create_code_unit oracle st file_id c language parent_id
    let r2 := create_code_unit_children oracle r1.1 file_id rest language parent_id
    (r2.1, r1.2.2 ++ r2.2)
termination_by sizeOf children
decreasing_by
  all_goals simp_wf
  all_goals omega

end

/-- The per-unit loop of `_process_file`: create each top-level unit and
collect the {type, name, description} entries of the returned units whose
description is truthy. -/
def processUnits (oracle : LLMOracle) (st : DBState) (file_id : Nat)
    (code_units : List CodeUnitInfo) (language : String) :
    DBState × List (String × String × String) × List LLMCall :=
  match code_units with
  | [] => (st, [], [])
  | ui :: rest =>
    let r1 := create_code_unit oracle st file_id ui language none
    let entry :=
      if pyTruthy r1.2.1.description then
        [(r1.2.1.type, r1.2.1.name, r1.2.1.description.getD "")]
      else []
    let r2 := processUnits oracle r1.1 file_id rest language
    (r2.1, entry ++ r2.2.1, r1.2.2 ++ r2.2.2)

/-- `ParserService.parse_file`: language detection, then extraction over the
tree produced by the external tree-sitter parser (supplied as input; a parser
exists for every detected language, so `_get_parser` never fails here). -/
def parse_file (file_path content : String) (tree : TSNode) : Option ParseResult :=
  match detect_language file_path with
  | none => none
  | some language =>
    some ⟨language, extractCodeUnits tree content language none,
          content.data.count (Char.ofNat 10) + 1⟩

/-- The `select(File).where(directory_id == , path == )` lookup of
`_process_file`. -/
def findFile (st : DBState) (directory_id : Nat) (p : String) : Option FileRec :=
  st.files.find? fun f => f.directory_id == directory_id && f.path == p

/-- `_process_file` (tasks.py): ensure the directory, look up the file; an
existing file with an unchanged content hash returns immediately; otherwise
the parse result (absent for undetected languages) drives an update —
existing rows are updated in place with their code units deleted — or an
insert, the units are created, and a summary call is made exactly when some
collected entry exists. `content`, `content_hash` and `tree` stand for the
git-service reads and the external parse. Returns the new state and the
logged language-model calls. -/
def process_file (oracle : LLMOracle) (st : DBState) (repo : RepoRec)
    (file_path content content_hash : String) (tree : TSNode) :
    DBState × List LLMCall :=
  let dres := ensure_directory st repo ((pySplit file_path '/').dropLast)
  let st1 := dres.1
  let directory := dres.2
  let existing_file := findFile st1 directory.id file_path
  if (match existing_file with
      | some f => f.content_hash == content_hash
      | none => false) then
    (st1, [])
  else
    match parse_file file_path content tree with
    | none => (st1, [])
    | some parse_result =>
      let fres : DBState × FileRec :=
        match existing_file with
        | some f =>
          let updated := { f with content_hash := content_hash,
                                  language := parse_result.language,
                                  line_count := parse_result.line_count }
          ({ st1 with
              files := st1.files.map fun g => if g.id == f.id then updated else g,
              units := st1.units.filter fun u => !(u.file_id == f.id) }, updated)
        | none =>
          let file_record : FileRec :=
            ⟨st1.nextId, directory.id, file_path, pathFinalComponent file_path,
             parse_result.language, content_hash, parse_result.line_count, none⟩
          ({ st1 with files := st1.files ++ [file_record],
                      nextId := st1.nextId + 1 }, file_record)
      let st2 := fres.1
      let file_record := fres.2
      let ures := processUnits oracle st2 file_record.id parse_result.code_units
        parse_result.language
      let st3 := ures.1
      let code_unit_summaries := ures.2.1
      if code_unit_summaries.isEmpty then (st3, ures.2.2)
      else
        let summary := oracle.summarize_file file_path code_unit_summaries
          parse_result.language
        ({ st3 with files := st3.files.map fun g =>
            if g.id == file_record.id then { g with summary := some summary } else g },
         ures.2.2 ++
           [LLMCall.summarizeFileCall file_path code_unit_summaries
             parse_result.language])

/-- Total number of units in a forest, children included. -/
def totalUnitsList : List CodeUnitInfo → Nat
  | [] => 0
  | c :: rest => 1 + totalUnitsList c.children + totalUnitsList rest
termination_by l => sizeOf l
decreasing_by
  all_goals simp_wf
  all_goals (cases c; simp; try omega)

mutual

/-- Well-formedness of a parse tree: every child's row span lies inside its
parent's row span (a tree-sitter guarantee, assumed of input trees). -/
def spanWF (n : TSNode) : Bool :=
  spanWFList n.startRow n.endRow n.children
termination_by sizeOf n
decreasing_by
  simp_wf
  cases n
  simp
  try omega

/-- `spanWF` over a child list against the enclosing bounds. -/
def spanWFList (lo hi : Nat) (l : List TSNode) : Bool :=
  match l with
  | [] => true
  | c :: rest =>
    (decide (lo ≤ c.startRow) && decide (c.endRow ≤ hi)) && spanWF c &&
      spanWFList lo hi rest
termination_by sizeOf l
decreasing_by
  all_goals simp_wf
  all_goals omega

end

/-- Validity of a parent-class context as threaded by the extractor: absent,
or a non-empty class name (the names of extracted classes are never empty). -/
def pcOK : Option String → Bool
  | none => true
  | some s => !(s == "")

mutual

/-- The structural invariant of an extracted unit under parent-class context
`pc`: a class-typed unit may carry children, each satisfying the invariant
under its name; any other unit is typed "method" exactly when `pc` is truthy,
carries `parent_class` metadata exactly then, and has no children; children's
line ranges are contained in the parent's. -/
def unitInv (pc : Option String) (u : CodeUnitInfo) : Bool :=
  (if u.type == "class" then true
   else
     ((u.type == "method") == pyTruthy pc) &&
       (u.metadata == (if pyTruthy pc then [("parent_class", pc.getD "")] else [])) &&
       u.children.isEmpty) &&
    unitInvChildren u.start_line u.end_line u.name u.children
termination_by sizeOf u
decreasing_by
  simp_wf
  cases u
  simp
  omega

/-- `unitInv` over a child list against the parent's bounds and name. -/
def unitInvChildren (lo hi : Nat) (cls : String) (l : List CodeUnitInfo) : Bool :=
  match l with
  | [] => true
  | c :: rest =>
    (decide (lo ≤ c.start_line) && decide (c.end_line ≤ hi)) && unitInv (some cls) c &&
      unitInvChildren lo hi cls rest
termination_by sizeOf l
decreasing_by
  all_goals simp_wf
  all_goals omega

end

/-! Concrete fixtures used by counterexamples and witnesses. -/

/-- JavaScript: a named inner function declaration. -/
def jsInnerFn : TSNode :=
  ⟨"function_declaration", 2, 3, 11, 30, "",
   [⟨"identifier", 2, 2, 20, 25, "inner", []⟩]⟩

/-- JavaScript: the body block of the anonymous function, containing
`jsInnerFn`. -/
def jsBlock : TSNode := ⟨"statement_block", 1, 4, 10, 35, "", [jsInnerFn]⟩

/-- JavaScript: an anonymous function expression node (kind "function", no
name-bearing child) whose body contains a named function declaration. -/
def jsAnonFn : TSNode := ⟨"function", 0, 5, 0, 40, "", [jsBlock]⟩

/-- JavaScript: a program node holding only the anonymous function. -/
def jsRoot : TSNode := ⟨"program", 0, 5, 0, 40, "", [jsAnonFn]⟩

/-- JavaScript: a named top-level function declaration. -/
def jsNamedFn : TSNode :=
  ⟨"function_declaration", 0, 1, 0, 10, "", [⟨"identifier", 0, 0, 9, 10, "f", []⟩]⟩

/-- Python source of a class `A` with two methods `f` and `g`. -/
def pyContent : String := "class A:\n def f(s):\n  pass\n def g(s):\n  pass"

/-- Python: parse tree of `pyContent` (shape as produced by tree-sitter,
restricted to the children the extractor inspects). -/
def pyDefF : TSNode :=
  ⟨"function_definition", 1, 2, 10, 26, "", [⟨"identifier", 1, 1, 14, 15, "f", []⟩]⟩

/-- Python: second method of `pyContent`. -/
def pyDefG : TSNode :=
  ⟨"function_definition", 3, 4, 28, 44, "", [⟨"identifier", 3, 3, 32, 33, "g", []⟩]⟩

/-- Python: class body block of `pyContent`. -/
def pyBlock : TSNode := ⟨"block", 1, 4, 10, 44, "", [pyDefF, pyDefG]⟩

/-- Python: the class node of `pyContent`. -/
def pyClsA : TSNode :=
  ⟨"class_definition", 0, 4, 0, 44, "", [⟨"identifier", 0, 0, 6, 7, "A", []⟩, pyBlock]⟩

/-- Python: module node of `pyContent`. -/
def pyModule : TSNode := ⟨"module", 0, 4, 0, 44, "", [pyClsA]⟩

/-- Python source of a class `A` holding a nested class `B`. -/
def pyNestedContent : String := "class A:\n class B:\n  pass"

/-- Python: the nested class node of `pyNestedContent`. -/
def pyClsB : TSNode :=
  ⟨"class_definition", 1, 2, 10, 25, "", [⟨"identifier", 1, 1, 16, 17, "B", []⟩]⟩

/-- Python: outer class node of `pyNestedContent`. -/
def pyClsOuter : TSNode :=
  ⟨"class_definition", 0, 2, 0, 25, "",
   [⟨"identifier", 0, 0, 6, 7, "A", []⟩, ⟨"block", 1, 2, 10, 25, "", [pyClsB]⟩]⟩

/-- Python: module node of `pyNestedContent`. -/
def pyNestedModule : TSNode := ⟨"module", 0, 2, 0, 25, "", [pyClsOuter]⟩

/-- Python source of two sibling top-level functions `f` and `g`. -/
def sibContent : String := "def f():\n pass\ndef g():\n pass"

/-- Python: first sibling function of `sibContent`. -/
def sibDefF : TSNode :=
  ⟨"function_definition", 0, 1, 0, 14, "", [⟨"identifier", 0, 0, 4, 5, "f", []⟩]⟩

/-- Python: second sibling function of `sibContent`. -/
def sibDefG : TSNode :=
  ⟨"function_definition", 2, 3, 15, 29, "", [⟨"identifier", 2, 2, 19, 20, "g", []⟩]⟩

/-- Python: module node of `sibContent`. -/
def sibModule : TSNode := ⟨"module", 0, 3, 0, 29, "", [sibDefF, sibDefG]⟩

/-- A repository row fixture. -/
def repo0 : RepoRec := ⟨1, "o", "r", some "abc"⟩

/-- A database state holding the repository root directory and one file
`main.py` with content hash "h". -/
def stWithFile : DBState :=
  ⟨[⟨10, 1, none, [], "r"⟩], [⟨11, 10, "main.py", "main.py", "python", "h", 1, none⟩],
   [], 12⟩

/-- The empty database state. -/
def stEmpty : DBState := ⟨[], [], [], 0⟩

/-- An oracle whose description calls always succeed. -/
def oracleOK : LLMOracle := ⟨fun _ _ _ _ => some "d", fun _ _ _ => "s"⟩

/-- An oracle whose description call raises exactly on class-typed units. -/
def oracleClassFails : LLMOracle :=
  ⟨fun _ t _ _ => if t == "class" then none else some "df", fun _ _ _ => "sum"⟩

/-- An oracle whose description call raises exactly on the unit named "f". -/
def oracleFFails : LLMOracle :=
  ⟨fun _ _ n _ => if n == "f" then none else some "dg", fun _ _ _ => "s"⟩

/-- An empty parse tree fixture. -/
def emptyTree : TSNode := ⟨"module", 0, 0, 0, 0, "", []⟩

/-- A pending job fixture. -/
def jobPending : JobRec := ⟨1, 1, "pending", "full", 0, none, 0, none⟩

/-- A completed job fixture. -/
def jobCompleted : JobRec := ⟨2, 1, "completed", "full", 100, some 3, 3, none⟩

/-- What the extractor yields for method `f` of `pyContent`. -/
def pyUnitF : CodeUnitInfo :=
  ⟨"method", "f", 2, 3, "def f(s):", "def f(s):\n  pass", [], [("parent_class", "A")]⟩

/-- What the extractor yields for method `g` of `pyContent`. -/
def pyUnitG : CodeUnitInfo :=
  ⟨"method", "g", 4, 5, "def g(s):", "def g(s):\n  pass", [], [("parent_class", "A")]⟩

/-- What the extractor yields for class `A` of `pyContent`. -/
def pyUnitA : CodeUnitInfo :=
  ⟨"class", "A", 1, 5, "class A:", pyContent, [pyUnitF, pyUnitG], []⟩

/-- What the extractor yields for the nested class `B` of `pyNestedContent`. -/
def pyUnitB : CodeUnitInfo :=
  ⟨"class", "B", 2, 3, "class B:", "class B:\n  pass", [], []⟩

/-- What the extractor yields for the outer class of `pyNestedContent`. -/
def pyUnitOuter : CodeUnitInfo :=
  ⟨"class", "A", 1, 3, "class A:", pyNestedContent, [pyUnitB], []⟩

/-- What the extractor yields for sibling function `f` of `sibContent`. -/
def sibUnitF : CodeUnitInfo :=
  ⟨"function", "f", 1, 2, "def f():", "def f():\n pass", [], []⟩

/-- What the extractor yields for sibling function `g` of `sibContent`. -/
def sibUnitG : CodeUnitInfo :=
  ⟨"function", "g", 3, 4, "def g():", "def g():\n pass", [], []⟩

/-! ## Theorems -/

/-- C1, counterexample: the claim says a function-kind node without an
extractable name is dropped without recursion, so no unit from its subtree
ever surfaces. On the code, the anonymous JavaScript function node `jsAnonFn`
(kind "function", in the language's function kind set, name extraction
failing) IS recursed into: the named declaration inside its body surfaces in
the result forest. -/
theorem unnamed_function_subtree_units_surface :
    jsAnonFn.type ∈ (extractTypes "javascript").1 ∧
    extractFunction jsAnonFn "x" "javascript" none = none ∧
    (extractCodeUnits jsRoot "x" "javascript" none).map
      (fun u => (u.type, u.name)) = [("function", "inner")] := by
  refine ⟨by simp [jsAnonFn, extractTypes], ?_, ?_⟩
  · simp [extractFunction, getName, getNameFrom, nameTypes, jsAnonFn, jsBlock]
  · simp [extractCodeUnits, extractChildren, extractChild, extractFunction,
      extractClass, getName, getNameFrom, nameTypes, extractTypes, extractSignature,
      strSlice, sigLinesPython, pyTruthy, jsRoot, jsAnonFn, jsBlock, jsInnerFn]

/-- C1, amended: when the extractor meets a child whose kind is in the
language's function kind set, a successful name extraction contributes
exactly that one unit, with no children and no recursion into the node's
subtree; a failed name extraction contributes no unit for the node itself
but the extractor does recurse into the node's children under the unchanged
parent-class context. -/
theorem function_kind_child_extraction
    (c : TSNode) (content language : String) (pc : Option String)
    (hf : c.type ∈ (extractTypes language).1) :
    (extractFunction c content language pc = none →
      extractChild c content language pc =
        extractChildren c.children content language pc) ∧
    (∀ u, extractFunction c content language pc = some u →
      extractChild c content language pc = [u] ∧ u.children = []) := by
  constructor
  · intro h
    unfold extractChild
    simp [hf, h]
  · intro u h
    unfold extractChild
    simp [hf, h]
    revert h
    unfold extractFunction
    cases hg : getName c with
    | none => simp
    | some name =>
      by_cases hne : name == "" <;> simp [hne]
      intro hu
      rw [← hu]

/-- Witness for `function_kind_child_extraction` at two concrete nodes. -/
theorem function_kind_child_extraction_witness :
    extractChild jsAnonFn "x" "javascript" none =
      extractChildren jsAnonFn.children "x" "javascript" none ∧
    extractChild jsNamedFn "x" "javascript" none =
      [⟨"function", "f", 1, 2, "x", "x", [], []⟩] := by
  constructor
  · exact (function_kind_child_extraction jsAnonFn "x" "javascript" none
      (by simp [jsAnonFn, extractTypes])).1
      (by simp [extractFunction, getName, getNameFrom, nameTypes, jsAnonFn, jsBlock])
  · exact ((function_kind_child_extraction jsNamedFn "x" "javascript" none
      (by simp [jsNamedFn, extractTypes])).2 _
      (by simp [extractFunction, getName, getNameFrom, nameTypes, jsNamedFn,
        extractSignature, strSlice, pySplit, charSplit, pyStrip, pyTruthy])).1

/-- C2, counterexample: the claim says an incremental job's processed set and
`total_files` count are the changed paths filtered like a full job (dropping
lockfiles, hidden files, undetected languages). On the code, an incremental
job with a stored revision takes `changed_files` verbatim:
"package-lock.json" is selected (and counted) even though the full-job
filter would drop it. -/
theorem incremental_selection_counterexample :
    selectFilesToProcess "incremental" (some "abc") ["package-lock.json"] [] =
      ["package-lock.json"] ∧
    specFilteredChangedPaths ["package-lock.json"] = [] := ⟨rfl, rfl⟩

/-- C2, amended: for an incremental job with a truthy stored revision hash,
the processed set is exactly the raw changed-path set, unfiltered, and
`total_files` counts every changed path. -/
theorem incremental_selection_is_unfiltered
    (last_commit_hash : Option String) (changed_files : List String)
    (tree : List (List String × String))
    (hh : pyTruthy last_commit_hash = true) :
    selectFilesToProcess "incremental" last_commit_hash changed_files tree =
      changed_files ∧
    (selectFilesToProcess "incremental" last_commit_hash changed_files
      tree).length = changed_files.length := by
  unfold selectFilesToProcess
  simp [hh]

/-- Witness for `incremental_selection_is_unfiltered`. -/
theorem incremental_selection_is_unfiltered_witness :
    selectFilesToProcess "incremental" (some "deadbeef") ["x.py", "README"] [] =
      ["x.py", "README"] :=
  (incremental_selection_is_unfiltered (some "deadbeef") ["x.py", "README"] [] rfl).1

/-- C10: an incremental job against a repository with no stored revision hash
selects exactly the full scan of the tree, ignoring the changed paths —
the same selection as a full job on any inputs. -/
theorem incremental_without_hash_is_full
    (changed_files : List String) (tree : List (List String × String))
    (full_hash : Option String) (full_changed : List String) :
    selectFilesToProcess "incremental" none changed_files tree =
      get_all_supported_files tree ∧
    selectFilesToProcess "incremental" none changed_files tree =
      selectFilesToProcess "full" full_hash full_changed tree := by
  unfold selectFilesToProcess
  simp [pyTruthy]

/-- C6: cancelling a pending or running job writes status "failed" with
error message "Cancelled by user"; cancelling a completed or failed job is
rejected with a 400 error and no write. -/
theorem cancel_job_transitions (j : JobRec) :
    (j.status = "pending" ∨ j.status = "running" →
      cancel_job (some j) =
        Except.ok { j with status := "failed"
                           error_message := some "Cancelled by user" }) ∧
    (j.status = "completed" ∨ j.status = "failed" →
      cancel_job (some j) = .error (400, "Job cannot be cancelled")) := by
  unfold cancel_job
  constructor
  · rintro (h | h) <;> simp [h]
  · rintro (h | h) <;> simp [h]

/-- When the lookup succeeds, `ensure_directory` returns the found row and
leaves the state untouched. -/
theorem ensure_directory_found (st : DBState) (repo : RepoRec) (p : List String)
    (d : DirRec) (h : findDir st repo.id p = some d) :
    ensure_directory st repo p = (st, d) := by
  by_cases hp : p = []
  · subst hp; unfold ensure_directory; simp [h]
  · unfold ensure_directory; simp [hp, h]

/-- The root row created by `ensure_directory` on the empty path. -/
theorem ensure_directory_create_root (st : DBState) (repo : RepoRec)
    (h : findDir st repo.id [] = none) :
    ensure_directory st repo [] =
      ({ st with dirs := st.dirs ++ [⟨st.nextId, repo.id, none, [], repo.name⟩]
                 nextId := st.nextId + 1 },
       ⟨st.nextId, repo.id, none, [], repo.name⟩) := by
  unfold ensure_directory; simp [h]

/-- The row created by `ensure_directory` on a non-empty absent path, as a
child of the recursively ensured parent. -/
theorem ensure_directory_create (st : DBState) (repo : RepoRec) (p : List String)
    (hp : p ≠ []) (h : findDir st repo.id p = none) :
    ensure_directory st repo p =
      ({ (ensure_directory st repo p.dropLast).1 with
         dirs := (ensure_directory st repo p.dropLast).1.dirs ++
           [⟨(ensure_directory st repo p.dropLast).1.nextId, repo.id,
             some (ensure_directory st repo p.dropLast).2.id, p, p.getLast hp⟩]
         nextId := (ensure_directory st repo p.dropLast).1.nextId + 1 },
       ⟨(ensure_directory st repo p.dropLast).1.nextId, repo.id,
        some (ensure_directory st repo p.dropLast).2.id, p, p.getLast hp⟩) := by
  conv_lhs => rw [ensure_directory]
  simp [hp, h]

/-- `ensure_directory` never touches file or code-unit rows. -/
theorem ensure_directory_preserves (st : DBState) (repo : RepoRec) (p : List String) :
    (ensure_directory st repo p).1.files = st.files ∧
    (ensure_directory st repo p).1.units = st.units := by
  induction p using ensure_directory.induct st repo with
  | case1 d h => rw [ensure_directory_found st repo [] d h]; exact ⟨rfl, rfl⟩
  | case2 h => rw [ensure_directory_create_root st repo h]; exact ⟨rfl, rfl⟩
  | case3 p hp d h => rw [ensure_directory_found st repo p d h]; exact ⟨rfl, rfl⟩
  | case4 p hp h ih => rw [ensure_directory_create st repo p hp h]; exact ih

/-- `ensure_directory` only appends directory rows, all with paths no longer
than the requested one. -/
theorem ensure_directory_new_dirs (st : DBState) (repo : RepoRec) (p : List String) :
    ∃ ns, (ensure_directory st repo p).1.dirs = st.dirs ++ ns ∧
      ∀ d ∈ ns, d.path.length ≤ p.length := by
  induction p using ensure_directory.induct st repo with
  | case1 d h => exact ⟨[], by rw [ensure_directory_found st repo [] d h]; simp, by simp⟩
  | case2 h =>
    exact ⟨[⟨st.nextId, repo.id, none, [], repo.name⟩],
      by rw [ensure_directory_create_root st repo h], by simp⟩
  | case3 p hp d h => exact ⟨[], by rw [ensure_directory_found st repo p d h]; simp, by simp⟩
  | case4 p hp h ih =>
    obtain ⟨ns, hns, hlen⟩ := ih
    refine ⟨ns ++ [⟨(ensure_directory st repo p.dropLast).1.nextId, repo.id,
      some (ensure_directory st repo p.dropLast).2.id, p, p.getLast hp⟩], ?_, ?_⟩
    · rw [ensure_directory_create st repo p hp h]
      show (ensure_directory st repo p.dropLast).1.dirs ++ _ = _
      rw [hns, List.append_assoc]
    · intro d hd
      rcases List.mem_append.1 hd with hd | hd
      · refine le_trans (hlen d hd) ?_
        rw [List.length_dropLast]
        omega
      · simp at hd
        subst hd
        simp

/-- A found directory row matches the queried repository and path. -/
theorem findDir_matches (st : DBState) (repoId : Nat) (p : List String) (d : DirRec)
    (h : findDir st repoId p = some d) : d.repository_id = repoId ∧ d.path = p := by
  have hm := List.find?_some h
  simp at hm
  exact hm

/-- After `ensure_directory`, the requested path is found and resolves to the
returned row. -/
theorem ensure_directory_find (st : DBState) (repo : RepoRec) (p : List String) :
    findDir (ensure_directory st repo p).1 repo.id p =
      some (ensure_directory st repo p).2 := by
  induction p using ensure_directory.induct st repo with
  | case1 d h => rw [ensure_directory_found st repo [] d h]; exact h
  | case2 h =>
    rw [ensure_directory_create_root st repo h]
    unfold findDir at h ⊢
    simp only [List.find?_append, h, Option.none_or]
    simp [List.find?_cons]
  | case3 p hp d h => rw [ensure_directory_found st repo p d h]; exact h
  | case4 p hp h ih =>
    obtain ⟨ns, hns, hlen⟩ := ensure_directory_new_dirs st repo p.dropLast
    rw [ensure_directory_create st repo p hp h]
    unfold findDir at h ⊢
    simp only
    rw [hns, List.append_assoc, List.find?_append, h, Option.none_or,
      List.find?_append]
    have hns2 : List.find?
        (fun d => d.repository_id == repo.id && d.path == p) ns = none := by
      rw [List.find?_eq_none]
      intro d' hd'
      have hlt : d'.path.length < p.length := by
        have h1 := hlen d' hd'
        rw [List.length_dropLast] at h1
        have h2 : 0 < p.length := List.length_pos.2 hp
        omega
      have hne : d'.path ≠ p := fun he => by rw [he] at hlt; omega
      simp [hne]
    rw [hns2, Option.none_or]
    simp [List.find?_cons]

/-- C9: the directory-ensure operation is idempotent — a second call returns
the first call's row and changes nothing; the empty path finds or creates the
repository's root directory named after the repository; a non-empty absent
path first ensures its parent path recursively, then appends exactly one new
row, named after the path's last component, as that parent's child. -/
theorem ensure_directory_contract (st : DBState) (repo : RepoRec) (p : List String) :
    ensure_directory (ensure_directory st repo p).1 repo p =
      ensure_directory st repo p ∧
    (ensure_directory st repo p).2.path = p ∧
    (p = [] → findDir st repo.id [] = none →
      (ensure_directory st repo p).2.name = repo.name ∧
      (ensure_directory st repo p).1.dirs =
        st.dirs ++ [(ensure_directory st repo p).2]) ∧
    (∀ h : p ≠ [], findDir st repo.id p = none →
      (ensure_directory st repo p).2.parent_id =
        some (ensure_directory st repo p.dropLast).2.id ∧
      (ensure_directory st repo p).2.name = p.getLast h ∧
      (ensure_directory st repo p).1.dirs =
        (ensure_directory st repo p.dropLast).1.dirs ++
          [(ensure_directory st repo p).2]) := by
  refine ⟨?_, ?_, ?_, ?_⟩
  · rw [ensure_directory_found (ensure_directory st repo p).1 repo p
      (ensure_directory st repo p).2 (ensure_directory_find st repo p)]
  · by_cases hp : p = []
    · subst hp
      cases hfd : findDir st repo.id [] with
      | some d => rw [ensure_directory_found st repo [] d hfd]
                  exact (findDir_matches st repo.id [] d hfd).2
      | none => rw [ensure_directory_create_root st repo hfd]
    · cases hfd : findDir st repo.id p with
      | some d => rw [ensure_directory_found st repo p d hfd]
                  exact (findDir_matches st repo.id p d hfd).2
      | none => rw [ensure_directory_create st repo p hp hfd]
  · intro hp hfd
    subst hp
    rw [ensure_directory_create_root st repo hfd]
    exact ⟨rfl, rfl⟩
  · intro hp hfd
    rw [ensure_directory_create st repo p hp hfd]
    exact ⟨rfl, rfl, rfl⟩

/-- Witness for `ensure_directory_contract` on the empty state. -/
theorem ensure_directory_contract_witness :
    ensure_directory (ensure_directory stEmpty repo0 ["a"]).1 repo0 ["a"] =
      ensure_directory stEmpty repo0 ["a"] ∧
    (ensure_directory stEmpty repo0 ["a"]).2.parent_id =
      some (ensure_directory stEmpty repo0 (["a"].dropLast)).2.id ∧
    (ensure_directory stEmpty repo0 []).2.name = repo0.name := by
  refine ⟨(ensure_directory_contract stEmpty repo0 ["a"]).1, ?_, ?_⟩
  · exact ((ensure_directory_contract stEmpty repo0 ["a"]).2.2.2 (by simp)
      (by simp [findDir, stEmpty])).1
  · exact ((ensure_directory_contract stEmpty repo0 []).2.2.1 rfl
      (by simp [findDir, stEmpty])).1

/-- C3: processing a file whose freshly computed content hash equals the one
stored on its existing row is a no-op: the call returns immediately after the
directory lookup, so the file rows and code-unit rows are exactly those of
the incoming state and no language-model call is logged. (The selection step
is upstream of `_process_file`, so this holds for any job type.) -/
theorem unchanged_hash_file_noop
    (oracle : LLMOracle) (st : DBState) (repo : RepoRec)
    (file_path content content_hash : String) (tree : TSNode) (f : FileRec)
    (hfind : findFile (ensure_directory st repo ((pySplit file_path '/').dropLast)).1
      (ensure_directory st repo ((pySplit file_path '/').dropLast)).2.id file_path =
      some f)
    (hhash : f.content_hash = content_hash) :
    process_file oracle st repo file_path content content_hash tree =
      ((ensure_directory st repo ((pySplit file_path '/').dropLast)).1, []) ∧
    (process_file oracle st repo file_path content content_hash tree).1.files =
      st.files ∧
    (process_file oracle st repo file_path content content_hash tree).1.units =
      st.units := by
  have hpf : process_file oracle st repo file_path content content_hash tree =
      ((ensure_directory st repo ((pySplit file_path '/').dropLast)).1, []) := by
    unfold process_file
    simp [hfind, hhash]
  refine ⟨hpf, ?_, ?_⟩
  · rw [hpf]; exact (ensure_directory_preserves st repo _).1
  · rw [hpf]; exact (ensure_directory_preserves st repo _).2

/-- Witness for `unchanged_hash_file_noop` on a state holding `main.py` with
hash "h". -/
theorem unchanged_hash_file_noop_witness :
    process_file oracleOK stWithFile repo0 "main.py" "" "h" emptyTree =
      (stWithFile, []) ∧
    (process_file oracleOK stWithFile repo0 "main.py" "" "h" emptyTree).1.units =
      stWithFile.units := by
  have hroot : ensure_directory stWithFile repo0
      ((pySplit "main.py" '/').dropLast) = (stWithFile, ⟨10, 1, none, [], "r"⟩) := by
    have he : (pySplit "main.py" '/').dropLast = ([] : List String) := rfl
    rw [he]
    exact ensure_directory_found stWithFile repo0 [] _ rfl
  have h := unchanged_hash_file_noop oracleOK stWithFile repo0 "main.py" "" "h"
    emptyTree ⟨11, 10, "main.py", "main.py", "python", "h", 1, none⟩
    (by rw [hroot]; rfl) rfl
  exact ⟨by rw [h.1, hroot], h.2.2⟩

/-- The row returned by `_create_code_unit`: built from the unit info, with
`description` exactly the oracle's answer (`none` when the call raised). -/
theorem create_code_unit_row (oracle : LLMOracle) (st : DBState) (file_id : Nat)
    (ui : CodeUnitInfo) (language : String) (parent_id : Option Nat) :
    (create_code_unit oracle st file_id ui language parent_id).2.1 =
      ⟨st.nextId, file_id, parent_id, ui.type, ui.name, ui.start_line, ui.end_line,
       ui.signature,
       oracle.analyze_code_unit ui.source_code ui.type ui.name language,
       ui.metadata⟩ := by
  unfold create_code_unit
  rfl

/-- The extraction result for `pyContent`: one class with two methods. -/
theorem extract_pyModule :
    extractCodeUnits pyModule pyContent "python" none = [pyUnitA] := by
  simp [extractCodeUnits, extractChildren, extractChild, extractFunction, extractClass,
    getName, getNameFrom, nameTypes, extractTypes, extractSignature, strSlice,
    sigLinesPython, pyTruthy, pyModule, pyClsA, pyBlock, pyDefF, pyDefG, pyContent,
    pySplit, charSplit, pyStrip, strEndsWith, strIntercalate, charsStartWith,
    pyUnitA, pyUnitF, pyUnitG]
  decide

/-- The extraction result for `sibContent`: two sibling functions. -/
theorem extract_sibModule :
    extractCodeUnits sibModule sibContent "python" none = [sibUnitF, sibUnitG] := by
  simp [extractCodeUnits, extractChildren, extractChild, extractFunction, extractClass,
    getName, getNameFrom, nameTypes, extractTypes, extractSignature, strSlice,
    sigLinesPython, pyTruthy, sibModule, sibDefF, sibDefG, sibContent,
    pySplit, charSplit, pyStrip, strEndsWith, strIntercalate, charsStartWith,
    sibUnitF, sibUnitG]
  decide

/-- Unit creation for `pyUnitA` under the class-failing oracle: three rows,
the class row undescribed, no collected summary entry. -/
theorem processUnits_pyUnitA (st : DBState) (fid : Nat) :
    processUnits oracleClassFails st fid [pyUnitA] "python" =
      ({ st with
          units := st.units ++
            [⟨st.nextId, fid, none, "class", "A", 1, 5, "class A:", none, []⟩,
             ⟨st.nextId + 1, fid, some st.nextId, "method", "f", 2, 3, "def f(s):",
              some "df", [("parent_class", "A")]⟩,
             ⟨st.nextId + 2, fid, some st.nextId, "method", "g", 4, 5, "def g(s):",
              some "df", [("parent_class", "A")]⟩]
          nextId := st.nextId + 3 },
       [],
       [LLMCall.analyzeUnit pyContent "class" "A" "python",
        LLMCall.analyzeUnit "def f(s):\n  pass" "method" "f" "python",
        LLMCall.analyzeUnit "def g(s):\n  pass" "method" "g" "python"]) := by
  simp [processUnits, create_code_unit, create_code_unit_children, oracleClassFails,
    pyUnitA, pyUnitF, pyUnitG, pyTruthy, pyContent]

/-- Unit creation for the sibling functions under the f-failing oracle: both
rows created, only g's entry collected. -/
theorem processUnits_sib (st : DBState) (fid : Nat) :
    processUnits oracleFFails st fid [sibUnitF, sibUnitG] "python" =
      ({ st with
          units := st.units ++
            [⟨st.nextId, fid, none, "function", "f", 1, 2, "def f():", none, []⟩,
             ⟨st.nextId + 1, fid, none, "function", "g", 3, 4, "def g():",
              some "dg", []⟩]
          nextId := st.nextId + 2 },
       [("function", "g", "dg")],
       [LLMCall.analyzeUnit "def f():\n pass" "function" "f" "python",
        LLMCall.analyzeUnit "def g():\n pass" "function" "g" "python"]) := by
  simp [processUnits, create_code_unit, create_code_unit_children, oracleFFails,
    sibUnitF, sibUnitG, pyTruthy]

/-- Full evaluation of `_process_file` on `pyContent` under the class-failing
oracle: root directory and file row created, three unit rows, three analyze
calls, and no file-summary call (the only top-level unit has no
description). -/
theorem process_file_classFails_eq :
    process_file oracleClassFails stEmpty repo0 "a.py" pyContent "h0" pyModule =
      (⟨[⟨0, 1, none, [], "r"⟩],
        [⟨1, 0, "a.py", "a.py", "python", "h0", 5, none⟩],
        [⟨2, 1, none, "class", "A", 1, 5, "class A:", none, []⟩,
         ⟨3, 1, some 2, "method", "f", 2, 3, "def f(s):", some "df",
          [("parent_class", "A")]⟩,
         ⟨4, 1, some 2, "method", "g", 4, 5, "def g(s):", some "df",
          [("parent_class", "A")]⟩], 5⟩,
       [LLMCall.analyzeUnit pyContent "class" "A" "python",
        LLMCall.analyzeUnit "def f(s):\n  pass" "method" "f" "python",
        LLMCall.analyzeUnit "def g(s):\n  pass" "method" "g" "python"]) := by
  have hlc : pyContent.data.count (Char.ofNat 10) + 1 = 5 := rfl
  simp [process_file, ensure_directory, findDir, findFile, parse_file, detect_language,
    EXTENSION_MAP, pySuffix, rfindIdx, pathFinalComponent, extract_pyModule,
    processUnits_pyUnitA, stEmpty, repo0, pySplit, charSplit, strToLower, hlc]

/-- Full evaluation of `_process_file` on `sibContent` under the f-failing
oracle: the file-summary call is made and receives only g's entry. -/
theorem process_file_sib_eq :
    process_file oracleFFails stEmpty repo0 "b.py" sibContent "h1" sibModule =
      (⟨[⟨0, 1, none, [], "r"⟩],
        [⟨1, 0, "b.py", "b.py", "python", "h1", 4, some "s"⟩],
        [⟨2, 1, none, "function", "f", 1, 2, "def f():", none, []⟩,
         ⟨3, 1, none, "function", "g", 3, 4, "def g():", some "dg", []⟩], 4⟩,
       [LLMCall.analyzeUnit "def f():\n pass" "function" "f" "python",
        LLMCall.analyzeUnit "def g():\n pass" "function" "g" "python",
        LLMCall.summarizeFileCall "b.py" [("function", "g", "dg")] "python"]) := by
  have hlc : sibContent.data.count (Char.ofNat 10) + 1 = 4 := rfl
  simp [process_file, ensure_directory, findDir, findFile, parse_file, detect_language,
    EXTENSION_MAP, pySuffix, rfindIdx, pathFinalComponent, extract_sibModule,
    processUnits_sib, stEmpty, repo0, pySplit, charSplit, strToLower, hlc]
  rfl

/-- C5, counterexample: the claim says the per-file summarization call
receives the {type, name, description} entries of those units of the file
with a non-null description. On the code, only *top-level* units are
collected: for a class (description call failed) containing a described
method, the file has described unit rows, yet no summarization call is made
at all. -/
theorem described_child_unit_not_in_summary_call :
    (process_file oracleClassFails stEmpty repo0 "a.py" pyContent "h0"
      pyModule).2.filter isSummarizeFileCall = [] ∧
    ((process_file oracleClassFails stEmpty repo0 "a.py" pyContent "h0"
        pyModule).1.units.filter (fun u => u.description.isSome)).map
      (fun u => (u.type, u.name)) = [("method", "f"), ("method", "g")] := by
  rw [process_file_classFails_eq]
  exact ⟨rfl, rfl⟩

/-- C5, amended: a failing description call leaves that unit's description
unset while the unit's row is still created and processing continues; the
collected file-summary entries are exactly the {type, name, description} of
the *top-level* units whose description call succeeded with truthy text
(descendant units' descriptions are not collected); when one of two sibling
units fails, the file-summary call receives only the sibling's entry. -/
theorem unit_description_failure_isolated (oracle : LLMOracle) (st : DBState)
    (file_id : Nat) (code_units : List CodeUnitInfo) (language : String) :
    (processUnits oracle st file_id code_units language).2.1 =
      code_units.filterMap (fun ui =>
        match oracle.analyze_code_unit ui.source_code ui.type ui.name language with
        | none => none
        | some d => if d == "" then none else some (ui.type, ui.name, d)) ∧
    (∀ (ui : CodeUnitInfo) (pid : Option Nat) (st2 : DBState),
      (create_code_unit oracle st2 file_id ui language pid).2.1.description =
        oracle.analyze_code_unit ui.source_code ui.type ui.name language) ∧
    (process_file oracleFFails stEmpty repo0 "b.py" sibContent "h1"
      sibModule).2.filter isSummarizeFileCall =
      [LLMCall.summarizeFileCall "b.py" [("function", "g", "dg")] "python"] := by
  refine ⟨?_, ?_, ?_⟩
  · induction code_units generalizing st with
    | nil => rfl
    | cons ui rest ih =>
      unfold processUnits
      simp only [create_code_unit_row, ih, List.filterMap_cons]
      cases h : oracle.analyze_code_unit ui.source_code ui.type ui.name language with
      | none => simp [h, pyTruthy]
      | some d =>
        by_cases hd : d = ""
        · subst hd
          simp [h, pyTruthy]
        · simp [h, pyTruthy, hd]
  · intro ui pid st2
    rw [create_code_unit_row]
  · rw [process_file_sib_eq]
    rfl

/-- The per-file progress value never exceeds 80 while files remain. -/
theorem jobProgress_le_80 (n m : Nat) (h : m ≤ n) : jobProgress n m ≤ 80 := by
  unfold jobProgress
  by_cases hn : n = 0
  · simp [hn]
  · simp [hn]
    calc 80 * m / n ≤ 80 * n / n := Nat.div_le_div_right (Nat.mul_le_mul_left 80 h)
    _ = 80 := by rw [Nat.mul_div_cancel _ (Nat.pos_of_ne_zero hn)]

/-- The per-file progress value is monotone in the processed count. -/
theorem jobProgress_mono (n m m' : Nat) (h : m ≤ m') :
    jobProgress n m ≤ jobProgress n m' := by
  unfold jobProgress
  by_cases hn : n = 0
  · simp [hn]
  · simp [hn]
    exact Nat.div_le_div_right (Nat.mul_le_mul_left 80 h)

/-- The success trace, written as explicit conses. -/
theorem successTrace_eq (n : Nat) :
    successTrace n =
      ("pending", 0) :: ("running", 0) ::
        (((List.range n).map
            fun i => (("running", jobProgress n (i + 1)) : String × Nat)) ++
          [("running", 90), ("completed", 100)]) := by
  rw [successTrace]
  simp

/-- Every state of the success trace except the last is pending or running,
with progress at most 90. -/
theorem successTrace_dropLast (n : Nat) :
    ∀ s ∈ (successTrace n).dropLast,
      (s.1 = "pending" ∨ s.1 = "running") ∧ s.2 ≤ 90 := by
  intro s hs
  rw [successTrace, List.dropLast_concat] at hs
  simp only [List.mem_cons, List.mem_append] at hs
  rcases hs with (hs | hs | hs) | (hs | hs)
  · subst hs; simp
  · subst hs; simp
  · rcases List.mem_map.1 hs with ⟨i, hi, hf⟩
    rw [← hf]
    refine ⟨Or.inr rfl, ?_⟩
    exact le_trans (jobProgress_le_80 n (i + 1) (List.mem_range.1 hi)) (by omega)
  · subst hs; simp
  · simp at hs

/-- The success trace is monotone in progress. -/
theorem successTrace_pairwise (n : Nat) :
    List.Pairwise (fun a b : String × Nat => a.2 ≤ b.2) (successTrace n) := by
  rw [successTrace]
  apply List.pairwise_append.2
  refine ⟨?_, List.pairwise_singleton _ _, ?_⟩
  · constructor
    · intro b _; simp
    constructor
    · intro b _; simp
    apply List.pairwise_append.2
    refine ⟨?_, List.pairwise_singleton _ _, ?_⟩
    · refine List.Pairwise.map _ ?_ (List.pairwise_lt_range n)
      intro i j hij
      exact jobProgress_mono n (i + 1) (j + 1) (by omega)
    · intro a ha b hb
      rcases List.mem_map.1 ha with ⟨i, hi, hf⟩
      simp at hb
      rw [← hf, hb]
      exact le_trans (jobProgress_le_80 n (i + 1) (List.mem_range.1 hi)) (by omega)
  · intro a ha b hb
    simp at hb
    rw [hb]
    have := successTrace_dropLast n
    rw [successTrace, List.dropLast_concat] at this
    exact le_trans (this a ha).2 (by omega)

/-- Every state of an interrupted run's committed prefix is pending or
running with progress at most 90. -/
theorem failTrace_prefix (n k : Nat) (hkl : k + 2 ≤ (successTrace n).length) :
    ∀ s ∈ (successTrace n).take (k + 1),
      (s.1 = "pending" ∨ s.1 = "running") ∧ s.2 ≤ 90 := by
  intro s hs
  have hne : successTrace n ≠ [] := by rw [successTrace]; simp
  have hpre : (successTrace n).take (k + 1) =
      ((successTrace n).dropLast).take (k + 1) := by
    conv_lhs => rw [← List.dropLast_append_getLast (l := successTrace n) hne]
    rw [List.take_append_of_le_length]
    rw [List.length_dropLast]
    omega
  rw [hpre] at hs
  exact successTrace_dropLast n s (List.take_subset _ _ hs)

/-- The facts of an interrupted run's trace: monotone, terminal only at the
end, progress 100 never reached. -/
theorem failTrace_facts (n k : Nat) (hkl : k + 2 ≤ (successTrace n).length) :
    List.Pairwise (fun a b : String × Nat => a.2 ≤ b.2) (runTrace n (some k)) ∧
    (∀ s ∈ (runTrace n (some k)).dropLast,
      s.1 ≠ "completed" ∧ s.1 ≠ "failed") ∧
    (∀ s ∈ runTrace n (some k), s.2 = 100 → s.1 = "completed") := by
  have hpre_sub := failTrace_prefix n k hkl
  have hpre_ne : (successTrace n).take (k + 1) ≠ [] := by
    have hl : ((successTrace n).take (k + 1)).length = k + 1 := by
      rw [List.length_take]
      omega
    intro hnil
    rw [hnil] at hl
    simp at hl
  have hpw : List.Pairwise (fun a b : String × Nat => a.2 ≤ b.2)
      ((successTrace n).take (k + 1)) :=
    (successTrace_pairwise n).sublist (List.take_sublist _ _)
  have hlastmem : ((successTrace n).take (k + 1)).getLast hpre_ne ∈
      (successTrace n).take (k + 1) := List.getLast_mem hpre_ne
  have hfailprog :
      ((((successTrace n).take (k + 1)).getLast?).map Prod.snd).getD 0 =
        (((successTrace n).take (k + 1)).getLast hpre_ne).2 := by
    rw [List.getLast?_eq_getLast _ hpre_ne]
    rfl
  have hle_last : ∀ s ∈ (successTrace n).take (k + 1),
      s.2 ≤ (((successTrace n).take (k + 1)).getLast hpre_ne).2 := by
    intro s hs
    have hdecomp := List.dropLast_append_getLast
      (l := (successTrace n).take (k + 1)) hpre_ne
    rw [← hdecomp] at hs
    rcases List.mem_append.1 hs with hs | hs
    · have hpw2 := hpw
      rw [← hdecomp] at hpw2
      exact (List.pairwise_append.1 hpw2).2.2 s hs _ (by simp)
    · simp at hs
      rw [hs]
  have hrt : runTrace n (some k) =
      (successTrace n).take (k + 1) ++
        [("failed",
          ((((successTrace n).take (k + 1)).getLast?).map Prod.snd).getD 0)] := rfl
  refine ⟨?_, ?_, ?_⟩
  · rw [hrt]
    apply List.pairwise_append.2
    refine ⟨hpw, List.pairwise_singleton _ _, ?_⟩
    intro a ha b hb
    simp only [List.mem_singleton] at hb
    rw [hb]
    simp only
    rw [hfailprog]
    exact hle_last a ha
  · intro s hs
    rw [hrt, List.dropLast_concat] at hs
    rcases (hpre_sub s hs) with ⟨h1 | h1, _⟩ <;> simp [h1]
  · intro s hs
    rw [hrt] at hs
    rcases List.mem_append.1 hs with hs | hs
    · intro h100
      have := (hpre_sub s hs).2
      omega
    · simp only [List.mem_singleton] at hs
      rw [hs]
      simp only
      rw [hfailprog]
      intro h100
      have := (hpre_sub _ hlastmem).2
      omega

/-- C7: over a run's commit trace — successful, or failed after any prefix of
commits — progress is monotonically non-decreasing; a terminal status
(completed/failed) occurs only at the final commit, so progress never changes
after it; progress 100 occurs only with status completed; during the per-file
phase the i-th file commit carries progress `80 * (i + 1) / n` (the exact
floor of the source's `int((i + 1) / n * 80)`, and no file commits exist when
`n = 0`); and after the per-file phase the remaining commits are exactly 90
(after directory summarization) then 100 with completion. -/
theorem job_progress_trace (n : Nat) (failAfter : Option Nat)
    (hk : ∀ k, failAfter = some k → k + 2 ≤ (successTrace n).length) :
    List.Pairwise (fun a b : String × Nat => a.2 ≤ b.2) (runTrace n failAfter) ∧
    (∀ s ∈ (runTrace n failAfter).dropLast, s.1 ≠ "completed" ∧ s.1 ≠ "failed") ∧
    (∀ s ∈ runTrace n failAfter, s.2 = 100 → s.1 = "completed") ∧
    (∀ i, i < n →
      (successTrace n).get? (2 + i) = some ("running", 80 * (i + 1) / n)) ∧
    (successTrace n).drop (2 + n) = [("running", 90), ("completed", 100)] := by
  have hlenF : ((List.range n).map
      (fun i => (("running", jobProgress n (i + 1)) : String × Nat))).length = n := by
    simp
  refine ⟨?_, ?_, ?_, ?_, ?_⟩
  case refine_4 =>
    intro i hi
    rw [successTrace_eq, show 2 + i = i + 2 from by omega]
    simp only [List.get?_cons_succ]
    rw [List.get?_append (by rw [hlenF]; exact hi)]
    rw [List.get?_map, List.get?_range hi]
    simp only [Option.map_some']
    unfold jobProgress
    rw [if_neg (by omega : ¬n = 0)]
  case refine_5 =>
    rw [successTrace_eq, show 2 + n = n + 2 from by omega]
    simp only [List.drop_succ_cons]
    rw [List.drop_left' hlenF]
  case refine_1 =>
    cases failAfter with
    | none => exact successTrace_pairwise n
    | some k => exact (failTrace_facts n k (hk k rfl)).1
  case refine_2 =>
    cases failAfter with
    | none =>
      intro s hs
      rcases successTrace_dropLast n s hs with ⟨h1 | h1, _⟩ <;> simp [h1]
    | some k => exact (failTrace_facts n k (hk k rfl)).2.1
  case refine_3 =>
    cases failAfter with
    | none =>
      intro s hs
      show s.2 = 100 → s.1 = "completed"
      replace hs : s ∈ successTrace n := hs
      rw [successTrace] at hs
      rcases List.mem_append.1 hs with hs | hs
      · intro h100
        have := (successTrace_dropLast n s
          (by rw [successTrace, List.dropLast_concat]; exact hs)).2
        omega
      · simp only [List.mem_singleton] at hs
        rw [hs]
        intro _
        rfl
    | some k => exact (failTrace_facts n k (hk k rfl)).2.2

/-- Witness for `job_progress_trace` at a two-file run failing after the
second file commit. -/
theorem job_progress_trace_witness :
    List.Pairwise (fun a b : String × Nat => a.2 ≤ b.2) (runTrace 2 (some 2)) ∧
    (∀ s ∈ runTrace 2 (some 2), s.2 = 100 → s.1 = "completed") :=
  ⟨(job_progress_trace 2 (some 2)
      (by intro k hk; injection hk with h; rw [← h]; decide)).1,
   (job_progress_trace 2 (some 2)
      (by intro k hk; injection hk with h; rw [← h]; decide)).2.2.1⟩

/-- A path is lexicographically smaller than any extension of itself. -/
theorem lt_append_cons (l : List Char) (c : Char) (m : List Char) :
    l < l ++ c :: m := by
  induction l with
  | nil => exact List.Lex.nil
  | cons a as ih => exact List.Lex.cons ih

/-- C8: in the processing order of `_generate_directory_summaries`
(descending lexicographic path order), every directory whose path extends an
ancestor's path by a "/"-prefixed suffix appears strictly before that
ancestor; in particular the paths {"", "a", "a/b", "c"} are visited as
"c", "a/b", "a", "". -/
theorem directory_summaries_descendants_first :
    (∀ (paths : List (List Char)) (anc suffix : List Char) (i j : Nat)
      (hi : i < (directorySummaryOrder paths).length)
      (hj : j < (directorySummaryOrder paths).length),
      (directorySummaryOrder paths).get ⟨i, hi⟩ = anc ++ '/' :: suffix →
      (directorySummaryOrder paths).get ⟨j, hj⟩ = anc →
      i < j) ∧
    directorySummaryOrder [[], ['a'], ['a', '/', 'b'], ['c']] =
      [['c'], ['a', '/', 'b'], ['a'], []] := by
  constructor
  · intro paths anc suffix i j hi hj hvi hvj
    have hpw : List.Pairwise (fun a b : List Char => b ≤ a)
        (directorySummaryOrder paths) := by
      rw [directorySummaryOrder, List.pairwise_reverse]
      exact List.sorted_insertionSort _ paths
    have hlt : anc < anc ++ '/' :: suffix := lt_append_cons anc '/' suffix
    rcases lt_trichotomy i j with h | h | h
    · exact h
    · exfalso
      subst h
      rw [hvi] at hvj
      have := congrArg List.length hvj
      simp at this
    · exfalso
      have hle := (List.pairwise_iff_get.1 hpw) ⟨j, hj⟩ ⟨i, hi⟩ h
      rw [hvi, hvj] at hle
      exact absurd (lt_of_lt_of_le hlt hle) (lt_irrefl _)
  · decide

/-- Witness for the first part of `directory_summaries_descendants_first`:
"a/b" (index 1) precedes "a" (index 2). -/
theorem directory_summaries_descendants_first_witness : (1 : Nat) < 2 :=
  directory_summaries_descendants_first.1
    [[], ['a'], ['a', '/', 'b'], ['c']] ['a'] ['b'] 1 2
    (by decide) (by decide) (by decide) (by decide)

/-- A node's child list weighs less than the node. -/
theorem sizeOf_children_lt (c : TSNode) : sizeOf c.children < sizeOf c := by
  cases c
  simp
  try omega

/-- `spanWF` unfolded to its child list. -/
theorem spanWF_eq (c : TSNode) :
    spanWF c = spanWFList c.startRow c.endRow c.children := by
  rw [spanWF]

/-- `spanWFList` on a cons. -/
theorem spanWFList_cons (lo hi : Nat) (c : TSNode) (rest : List TSNode) :
    spanWFList lo hi (c :: rest) = true ↔
      lo ≤ c.startRow ∧ c.endRow ≤ hi ∧ spanWF c = true ∧
        spanWFList lo hi rest = true := by
  rw [spanWFList]
  simp [Bool.and_assoc, and_assoc]

/-- `unitInv` unfolded one step. -/
theorem unitInv_eq (pc : Option String) (u : CodeUnitInfo) :
    unitInv pc u =
      ((if u.type == "class" then true
        else ((u.type == "method") == pyTruthy pc) &&
          (u.metadata ==
            (if pyTruthy pc then [("parent_class", pc.getD "")] else [])) &&
          u.children.isEmpty) &&
        unitInvChildren u.start_line u.end_line u.name u.children) := by
  rw [unitInv]

/-- `unitInvChildren` as a statement about every child. -/
theorem unitInvChildren_iff (lo hi : Nat) (cls : String) (L : List CodeUnitInfo) :
    unitInvChildren lo hi cls L = true ↔
      ∀ c ∈ L, (lo ≤ c.start_line ∧ c.end_line ≤ hi) ∧
        unitInv (some cls) c = true := by
  induction L with
  | nil => rw [unitInvChildren]; simp
  | cons c rest ih =>
    rw [unitInvChildren]
    simp [List.forall_mem_cons, ih, and_assoc]

/-- The fields of a unit produced by `_extract_function`. -/
theorem extractFunction_inv (c : TSNode) (content language : String)
    (pc : Option String) (u : CodeUnitInfo)
    (h : extractFunction c content language pc = some u) :
    u.type = (if pyTruthy pc then "method" else "function") ∧
    u.start_line = c.startRow + 1 ∧ u.end_line = c.endRow + 1 ∧
    u.children = [] ∧
    u.metadata = (if pyTruthy pc then [("parent_class", pc.getD "")] else []) := by
  unfold extractFunction at h
  cases hg : getName c with
  | none => rw [hg] at h; simp at h
  | some name =>
    rw [hg] at h
    dsimp only at h
    by_cases hn : name == ""
    · rw [if_pos hn] at h; simp at h
    · rw [if_neg hn] at h
      injection h with h
      subst h
      exact ⟨rfl, rfl, rfl, rfl, rfl⟩

/-- The fields of a unit produced by `_extract_class`. -/
theorem extractClass_inv (c : TSNode) (content language : String)
    (u : CodeUnitInfo) (h : extractClass c content language = some u) :
    u.type = "class" ∧ (u.name == "") = false ∧
    u.start_line = c.startRow + 1 ∧ u.end_line = c.endRow + 1 := by
  unfold extractClass at h
  cases hg : getName c with
  | none => rw [hg] at h; simp at h
  | some name =>
    rw [hg] at h
    dsimp only at h
    by_cases hn : name == ""
    · rw [if_pos hn] at h; simp at h
    · rw [if_neg hn] at h
      injection h with h
      subst h
      refine ⟨rfl, ?_, rfl, rfl⟩
      simpa using hn

/-- Joint invariant of the extractor, by strong induction on the size of the
child list: under a valid parent-class context and well-formed spans, every
extracted unit satisfies `unitInv` and its line range lies inside the
enclosing bounds. -/
theorem extraction_inv_aux (content language : String) :
    ∀ (N : Nat) (l : List TSNode) (pc : Option String) (lo hi : Nat),
      sizeOf l ≤ N → pcOK pc = true → spanWFList lo hi l = true →
      ∀ u ∈ extractChildren l content language pc,
        unitInv pc u = true ∧ lo + 1 ≤ u.start_line ∧ u.end_line ≤ hi + 1 := by
  intro N
  induction N with
  | zero =>
    intro l pc lo hi hsz
    cases l <;> simp at hsz
  | succ N ih =>
    intro l pc lo hi hsz hpc hwf u hu
    cases l with
    | nil =>
      rw [show extractChildren [] content language pc = [] from by
        rw [extractChildren]] at hu
      simp at hu
    | cons c rest =>
      have hstep : extractChildren (c :: rest) content language pc =
          extractChild c content language pc ++
            extractChildren rest content language pc := by
        rw [extractChildren]
      rw [hstep] at hu
      obtain ⟨hlo, hhi, hcwf, hrwf⟩ := (spanWFList_cons lo hi c rest).1 hwf
      have hszc : sizeOf c ≤ N := by simp at hsz; omega
      have hszr : sizeOf rest ≤ N := by simp at hsz; omega
      have hszcc : sizeOf c.children ≤ N :=
        le_trans (Nat.le_of_lt (sizeOf_children_lt c)) hszc
      have hcwfl : spanWFList c.startRow c.endRow c.children = true := by
        rw [← spanWF_eq]; exact hcwf
      rcases List.mem_append.1 hu with hu | hu
      · -- u comes from child c
        unfold extractChild at hu
        by_cases hf : c.type ∈ (extractTypes language).1
        · rw [if_pos hf] at hu
          cases hfe : extractFunction c content language pc with
          | some u0 =>
            rw [hfe] at hu
            rw [List.mem_singleton] at hu
            obtain ⟨ht, hs, he, hch, hm⟩ :=
              extractFunction_inv c content language pc u0 hfe
            rw [hu]
            refine ⟨?_, by omega, by omega⟩
            rw [unitInv_eq, ht, hch, hm]
            cases hb : pyTruthy pc <;>
              simp [hb, unitInvChildren_iff]
          | none =>
            rw [hfe] at hu
            have := ih c.children pc c.startRow c.endRow hszcc hpc hcwfl u hu
            exact ⟨this.1, by omega, by omega⟩
        · rw [if_neg hf] at hu
          by_cases hcl : c.type ∈ (extractTypes language).2
          · rw [if_pos hcl] at hu
            cases hce : extractClass c content language with
            | some u0 =>
              rw [hce] at hu
              simp at hu
              obtain ⟨ht, hn, hs, he⟩ :=
                extractClass_inv c content language u0 hce
              have hchildren := ih c.children (some u0.name) c.startRow c.endRow
                hszcc (by simp [pcOK, hn])
                hcwfl
              refine ⟨?_, ?_, ?_⟩
              · rw [hu, unitInv_eq]
                simp only [ht]
                simp only [beq_self_eq_true, if_true]
                rw [Bool.true_and]
                rw [unitInvChildren_iff]
                intro cc hcc
                have hstep2 := hchildren cc hcc
                simp only [hs, he]
                exact ⟨⟨by omega, by omega⟩, hstep2.1⟩
              · rw [hu]; simp only [hs]; omega
              · rw [hu]; simp only [he]; omega
            | none =>
              rw [hce] at hu
              have := ih c.children pc c.startRow c.endRow hszcc hpc hcwfl u hu
              exact ⟨this.1, by omega, by omega⟩
          · rw [if_neg hcl] at hu
            have := ih c.children pc c.startRow c.endRow hszcc hpc hcwfl u hu
            exact ⟨this.1, by omega, by omega⟩
      · -- u comes from the remaining children
        exact ih rest pc lo hi hszr hpc hrwf u hu

/-- C4, counterexample: the claim's "a unit has type method iff discovered
while recursing inside a class-type node" fails for nested classes: class `B`
of `pyNestedContent` is discovered while recursing inside class `A`'s node
(it is collected as the class unit's child), yet its type is "class", not
"method". -/
theorem nested_class_unit_not_method :
    extractCodeUnits pyNestedModule pyNestedContent "python" none =
      [pyUnitOuter] ∧
    pyUnitOuter.children = [pyUnitB] ∧
    pyUnitB.type = "class" := by
  refine ⟨?_, rfl, rfl⟩
  simp [extractCodeUnits, extractChildren, extractChild, extractFunction,
    extractClass, getName, getNameFrom, nameTypes, extractTypes, extractSignature,
    strSlice, sigLinesPython, pyTruthy, pyNestedModule, pyClsOuter, pyClsB,
    pyNestedContent, pySplit, charSplit, pyStrip, strEndsWith, strIntercalate,
    charsStartWith, pyUnitOuter, pyUnitB]
  decide

/-- C4, amended: in every extraction forest (over a span-well-formed tree,
starting from the top-level call's empty class context), a function-kind unit
has type "method" exactly when it was discovered under a set (named) class
context — in which case its metadata records `parent_class`, the nearest
enclosing class's name — while class-kind units always have type "class"
even when nested inside another class; every child unit's line range is
contained in its parent's; and extracting `pyContent`'s class with two
methods yields exactly one class unit whose two children are method units
with `parent_class = "A"` and contained ranges. -/
theorem unit_forest_invariants (content language : String) (node : TSNode)
    (hwf : spanWF node = true) :
    (∀ u ∈ extractCodeUnits node content language none, unitInv none u = true) ∧
    extractCodeUnits pyModule pyContent "python" none = [pyUnitA] ∧
    pyUnitA.children = [pyUnitF, pyUnitG] ∧
    pyUnitF.type = "method" ∧ pyUnitG.type = "method" ∧
    pyUnitF.metadata = [("parent_class", "A")] ∧
    pyUnitG.metadata = [("parent_class", "A")] ∧
    pyUnitA.start_line ≤ pyUnitF.start_line ∧ pyUnitF.end_line ≤ pyUnitA.end_line ∧
    pyUnitA.start_line ≤ pyUnitG.start_line ∧
    pyUnitG.end_line ≤ pyUnitA.end_line := by
  refine ⟨?_, extract_pyModule, rfl, rfl, rfl, rfl, rfl, ?_, ?_, ?_, ?_⟩
  · intro u hu
    exact (extraction_inv_aux content language (sizeOf node.children)
      node.children none node.startRow node.endRow le_rfl rfl
      (by rw [← spanWF_eq]; exact hwf) u hu).1
  all_goals decide

/-- Witness for `unit_forest_invariants`: the invariant holds of the class
unit extracted from the two-method class tree. -/
theorem unit_forest_invariants_witness : unitInv none pyUnitA = true :=
  (unit_forest_invariants pyContent "python" pyModule
    (by simp [spanWF, spanWFList, pyModule, pyClsA, pyBlock, pyDefF, pyDefG])).1
    pyUnitA (by rw [extract_pyModule]; exact List.mem_singleton.2 rfl)

/-- Witness for `cancel_job_transitions`. -/
theorem cancel_job_transitions_witness :
    cancel_job (some jobPending) =
      Except.ok { jobPending with status := "failed"
                                  error_message := some "Cancelled by user" } ∧
    cancel_job (some jobCompleted) = .error (400, "Job cannot be cancelled") :=
  ⟨(cancel_job_transitions jobPending).1 (Or.inl rfl),
   (cancel_job_transitions jobCompleted).2 (Or.inl rfl)⟩

end CodeReadAI
